import Mathlib

set_option maxHeartbeats 1000000

/- Shallow embedding of the line tokenizer of src/utils/textParser.ts and of
the citation decomposition logic of the preview component.  Strings are
modelled as lists of characters.  The JavaScript master regular expression
(built from the quran, bold, italic and names patterns and used through
String.split with capturing groups) is modelled by an explicit leftmost
scanner that tries the alternatives in exactly the alternation order of the
source, which is what the backtracking engine does position by position.
Token identifiers of the source are derived from the wall clock and are
deliberately not modelled; a token is its text and its type. -/

inductive TokenType where
  | STANDARD
  | NAME
  | QURAN
  | BOLD
  | ITALIC
deriving DecidableEq, Repr

structure TextToken where
  text : List Char
  type : TokenType
deriving DecidableEq, Repr

/-- Whitespace class of JavaScript: the characters matched by the regex
class backslash-s, which is also exactly the set removed by trim. -/
def isWs (c : Char) : Bool :=
  decide (c.toNat = 9 ∨ c.toNat = 10 ∨ c.toNat = 11 ∨ c.toNat = 12 ∨ c.toNat = 13 ∨
    c.toNat = 32 ∨ c.toNat = 160 ∨ c.toNat = 5760 ∨
    (8192 ≤ c.toNat ∧ c.toNat ≤ 8202) ∨
    c.toNat = 8232 ∨ c.toNat = 8233 ∨ c.toNat = 8239 ∨ c.toNat = 8287 ∨
    c.toNat = 12288 ∨ c.toNat = 65279)

/-- Model of JavaScript trim: drop whitespace on both ends. -/
def jsTrim (l : List Char) : List Char :=
  ((l.dropWhile isWs).reverse.dropWhile isWs).reverse

/-- Model of the JavaScript slice from index k to index minus k, used by
the source to strip k marker characters from both ends of a part. -/
def stripMarks (k : Nat) (l : List Char) : List Char :=
  (l.drop k).take (l.length - 2 * k)

/-- Matches an opening character, one or more characters different from the
closing character, then the closing character, at the head of the input;
returns the matched length.  This models regex fragments of the shape
open [^close]+ close, whose greedy inner class always stops at the first
closing character. -/
def matchBraced (openC closeC : Char) (cs : List Char) : Option Nat :=
  match cs with
  | [] => none
  | c :: rest =>
    if c = openC then
      let inner := rest.takeWhile (fun d => d != closeC)
      if inner.isEmpty then none
      else
        match rest.drop inner.length with
        | d :: _ => if d = closeC then some (inner.length + 2) else none
        | [] => none
    else none

/-- The quran alternative of the master regex: a curly or ornate bracketed
quotation optionally followed by whitespace and a square bracketed
reference, or a standalone square bracketed reference.  The optional
reference group backtracks to empty when it cannot complete, which is why a
failed suffix leaves the base quotation match. -/
def quranMatch (cs : List Char) : Option Nat :=
  match (matchBraced '\x7b' '\x7d' cs).orElse (fun _ => matchBraced '﴿' '﴾' cs) with
  | some n =>
    let ws := (cs.drop n).takeWhile isWs
    match matchBraced '[' ']' (cs.drop (n + ws.length)) with
    | some m => some (n + ws.length + m)
    | none => some n
  | none => matchBraced '[' ']' cs

/-- The bold alternative of the master regex: two stars, one or more
non-star characters, two stars. -/
def boldMatch (cs : List Char) : Option Nat :=
  match cs with
  | '*' :: '*' :: rest =>
    let inner := rest.takeWhile (fun d => d != '*')
    if inner.isEmpty then none
    else
      match rest.drop inner.length with
      | '*' :: '*' :: _ => some (inner.length + 4)
      | _ => none
  | _ => none

/-- The italic alternative of the master regex: a star delimited or an
underscore delimited span with non-delimiter content. -/
def italicMatch (cs : List Char) : Option Nat :=
  (matchBraced '*' '*' cs).orElse (fun _ => matchBraced '_' '_' cs)

/-- The names alternative of the master regex.  The source joins the
escaped sorted names with the alternation bar and only appends that group
when the joined string is truthy; the joined string is empty exactly when
the name list is empty or is the single empty name.  Alternation tries the
names in sorted order and, all alternatives being literals, the first name
that is a prefix of the remaining input wins. -/
def nameMatch (sortedNames : List (List Char)) (cs : List Char) : Option Nat :=
  if sortedNames = [] ∨ sortedNames = [[]] then none
  else (sortedNames.find? (fun n => n.isPrefixOf cs)).map List.length

/-- One position of the master regex: the alternatives in source order,
quran then bold then italic then names. -/
def matchAt (sortedNames : List (List Char)) (cs : List Char) : Option Nat :=
  match quranMatch cs with
  | some n => some n
  | none =>
    match boldMatch cs with
    | some n => some n
    | none =>
      match italicMatch cs with
      | some n => some n
      | none => nameMatch sortedNames cs

/-- Prepends a literal character to a segment list, merging it with a
following literal segment so that unmatched stretches form one part, just
as the text between two regex matches is one element of the split. -/
def consLit (c : Char) : List (Bool × List Char) → List (Bool × List Char)
  | (false, seg) :: more => (false, c :: seg) :: more
  | segs => (false, [c]) :: segs

/-- The scanner behind String.split with the master regex: at each
position, the leftmost match wins; matched spans become tagged segments and
unmatched characters collect into literal segments.  A zero length match
(possible only through an empty dictionary name) splits the literal run,
mirroring the empty-match rule of the split algorithm, which never lets an
empty match consume input.  Fuel is the remaining length, every step
consumes at least one character. -/
def scanAux (sortedNames : List (List Char)) : Nat → List Char → List (Bool × List Char)
  | 0, _ => []
  | _ + 1, [] => []
  | fuel + 1, c :: rest =>
    match matchAt sortedNames (c :: rest) with
    | some (n + 1) =>
      (true, List.take (n + 1) (c :: rest)) :: scanAux sortedNames fuel (List.drop n rest)
    | some 0 => (false, [c]) :: scanAux sortedNames fuel rest
    | none => consLit c (scanAux sortedNames fuel rest)

/-- Splits a line into the interleaved matched and unmatched parts of the
master regex, left to right. -/
def scanSegs (sortedNames : List (List Char)) (text : List Char) : List (Bool × List Char) :=
  scanAux sortedNames text.length text

/-- Descending length order used by the comparator of the source sort. -/
def byLenDesc (a b : List Char) : Prop := b.length ≤ a.length

instance : DecidableRel byLenDesc := fun a b => Nat.decLe b.length a.length

instance : IsTotal (List Char) byLenDesc :=
  ⟨fun a b => by unfold byLenDesc; exact Or.symm (Nat.le_total a.length b.length)⟩

instance : IsTrans (List Char) byLenDesc :=
  ⟨fun _ _ _ hab hbc => by unfold byLenDesc at *; exact Nat.le_trans hbc hab⟩

/-- Model of the JavaScript includes check: substring containment. -/
def listIncludes (needle : List Char) : List Char → Bool
  | [] => needle.isEmpty
  | c :: rest => needle.isPrefixOf (c :: rest) || listIncludes needle rest

/-- Model of the source sort of the dictionary by descending length.  The
JavaScript sort with that comparator is stable, so it coincides with
insertion sort by the same key. -/
def sortNames (names : List (List Char)) : List (List Char) :=
  List.insertionSort byLenDesc names

/-- The classification of one part, translated branch by branch from the
body of the forEach of tokenizeLine.  The checks operate on the content of
the part alone, exactly as the startsWith and endsWith checks of the
source do. -/
def classifyPart (text : List Char) (sortedNames customNames : List (List Char))
    (namesAtStartOnly : Bool) (currentCursor : Nat) (part : List Char) : TextToken :=
  if ['\x7b'].isPrefixOf part ∨ ['﴿'].isPrefixOf part ∨ ['['].isPrefixOf part then
    { text := part, type := TokenType.QURAN }
  else if ['*', '*'].isPrefixOf part ∧ ['*', '*'].isSuffixOf part ∧ 4 < part.length then
    let stripped := stripMarks 2 part
    if sortedNames.any (fun name => listIncludes name stripped) then
      if namesAtStartOnly then
        if (jsTrim (text.take currentCursor)).length = 0 then
          { text := stripped, type := TokenType.NAME }
        else
          { text := stripped, type := TokenType.BOLD }
      else { text := stripped, type := TokenType.NAME }
    else { text := stripped, type := TokenType.BOLD }
  else if (['*'].isPrefixOf part ∧ ['*'].isSuffixOf part) ∨
      (['_'].isPrefixOf part ∧ ['_'].isSuffixOf part) then
    { text := stripMarks 1 part, type := TokenType.ITALIC }
  else if customNames.contains part then
    if namesAtStartOnly then
      if (jsTrim (text.take currentCursor)).length = 0 then
        { text := part, type := TokenType.NAME }
      else { text := part, type := TokenType.STANDARD }
    else { text := part, type := TokenType.NAME }
  else { text := part, type := TokenType.STANDARD }

/-- The forEach over the split parts: empty parts are skipped, each other
part is classified and the cursor advances by the length of the part. -/
def emitTokens (text : List Char) (sortedNames customNames : List (List Char))
    (namesAtStartOnly : Bool) : Nat → List (List Char) → List TextToken
  | _, [] => []
  | currentCursor, part :: rest =>
    if part.isEmpty then
      emitTokens text sortedNames customNames namesAtStartOnly currentCursor rest
    else
      classifyPart text sortedNames customNames namesAtStartOnly currentCursor part ::
        emitTokens text sortedNames customNames namesAtStartOnly
          (currentCursor + part.length) rest

/-- The tokenizer of the source: empty input short circuits, the dictionary
is sorted by descending length, the line is split by the master regex and
the parts are classified left to right. -/
def tokenizeLine (text : List Char) (customNames : List (List Char))
    (namesAtStartOnly : Bool) : List TextToken :=
  if text.isEmpty then []
  else
    let sortedNames := sortNames customNames
    let parts := (scanSegs sortedNames text).map Prod.snd
    emitTokens text sortedNames customNames namesAtStartOnly 0 parts

/-- An emitted run together with its provenance: the cursor at which its
part starts, whether the part was a regex match, and the original part
before marker stripping. -/
structure FullRun where
  cursor : Nat
  matched : Bool
  part : List Char
  token : TextToken
deriving DecidableEq, Repr

/-- The instrumented forEach: identical control flow to emitTokens but each
token keeps its cursor and its original part. -/
def emitFull (text : List Char) (sortedNames customNames : List (List Char))
    (namesAtStartOnly : Bool) : Nat → List (Bool × List Char) → List FullRun
  | _, [] => []
  | currentCursor, (m, part) :: rest =>
    if part.isEmpty then
      emitFull text sortedNames customNames namesAtStartOnly currentCursor rest
    else
      { cursor := currentCursor, matched := m, part := part,
        token := classifyPart text sortedNames customNames namesAtStartOnly
          currentCursor part } ::
        emitFull text sortedNames customNames namesAtStartOnly
          (currentCursor + part.length) rest

/-- The instrumented tokenizer. -/
def tokenizeFull (text : List Char) (customNames : List (List Char))
    (namesAtStartOnly : Bool) : List FullRun :=
  if text.isEmpty then []
  else
    emitFull text (sortNames customNames) customNames namesAtStartOnly 0
      (scanSegs (sortNames customNames) text)

/-- Structural equality of run sequences in the sense of the determinism
property: same length and, position by position, same text and same type. -/
def structTokensEq : List TextToken → List TextToken → Bool
  | [], [] => true
  | a :: as, b :: bs =>
    if a.text = b.text ∧ a.type = b.type then structTokensEq as bs else false
  | _, _ => false

/-- Bracket styles of the preview component. -/
inductive VerseBracketType where
  | curly
  | round
  | square
  | angle
  | quranic
deriving DecidableEq, Repr

/-- The bracket pairs of getBrackets. -/
def getBrackets : VerseBracketType → Char × Char
  | VerseBracketType.round => ('(', ')')
  | VerseBracketType.square => ('[', ']')
  | VerseBracketType.angle => ('«', '»')
  | VerseBracketType.quranic => ('﴿', '﴾')
  | VerseBracketType.curly => ('\x7b', '\x7d')

/-- The anchored two part citation regex of the preview component: a curly
or ornate bracketed quotation, then an optional group of whitespace plus a
square bracketed reference, then end of input.  Returns the two captured
groups, the second being empty when the optional group did not participate,
exactly as the source coalesces an undefined capture to the empty string. -/
def verseMatch (text : List Char) : Option (List Char × List Char) :=
  match (matchBraced '\x7b' '\x7d' text).orElse (fun _ => matchBraced '﴿' '﴾' text) with
  | none => none
  | some n =>
    let remainder := text.drop n
    if remainder.isEmpty then some (text.take n, [])
    else
      let ws := remainder.takeWhile isWs
      match matchBraced '[' ']' (remainder.drop ws.length) with
      | some m =>
        if ws.length + m = remainder.length then some (text.take n, remainder)
        else none
      | none => none

/-- The decomposition of a citation run, read off the rendering branch of
the preview component for quran tokens: a text that is a standalone square
bracketed reference is rendered plain, with the whole text as the
reference and no configured delimiters; otherwise the anchored regex
separates the quotation from the optional reference (falling back to the
whole text with empty reference when it does not match), the original
curly or ornate wrapper of the quotation is stripped when present, and the
configured bracket pair is applied around the quoted content. -/
structure Decomposed where
  quoted : Option (List Char)
  reference : Option (List Char)
  leftDelim : Option Char
  rightDelim : Option Char
deriving DecidableEq, Repr

def decomposeCitation (text : List Char) (style : VerseBracketType) : Decomposed :=
  if ['['].isPrefixOf text ∧ [']'].isSuffixOf text then
    { quoted := none, reference := some text, leftDelim := none, rightDelim := none }
  else
    let vm := verseMatch text
    let verseContentRaw := match vm with | some (g1, _) => g1 | none => text
    let citationContent := match vm with | some (_, g2) => g2 | none => []
    let content :=
      if (['\x7b'].isPrefixOf verseContentRaw ∧ ['\x7d'].isSuffixOf verseContentRaw) ∨
          (['﴿'].isPrefixOf verseContentRaw ∧ ['﴾'].isSuffixOf verseContentRaw) then
        stripMarks 1 verseContentRaw
      else verseContentRaw
    let lr := getBrackets style
    { quoted := some content,
      reference := if citationContent.isEmpty then none else some citationContent,
      leftDelim := some lr.1, rightDelim := some lr.2 }

/- Helper lemmas about the embedded definitions. -/

theorem stripMarks_length (k : Nat) (l : List Char) :
    (stripMarks k l).length = l.length - 2 * k := by
  simp only [stripMarks, List.length_take, List.length_drop]
  omega

theorem jsTrim_eq_nil_iff {l : List Char} : jsTrim l = [] ↔ l.all isWs = true := by
  unfold jsTrim
  rw [List.reverse_eq_nil_iff, List.dropWhile_eq_nil_iff]
  constructor
  · intro h
    rw [List.all_eq_true]
    intro x hx
    have hsplit := List.takeWhile_append_dropWhile isWs l
    rw [← hsplit] at hx
    rcases List.mem_append.mp hx with hx | hx
    · exact List.mem_takeWhile_imp hx
    · exact h x (List.mem_reverse.mpr hx)
  · intro h x hx
    have hx2 : x ∈ l.dropWhile isWs := List.mem_reverse.mp hx
    have hx3 : x ∈ l := (List.dropWhile_sublist isWs).mem hx2
    exact List.all_eq_true.mp h x hx3

theorem isPrefixOf_single_iff {c : Char} {l : List Char} :
    [c].isPrefixOf l = true ↔ ∃ t, l = c :: t := by
  cases l with
  | nil => simp [List.isPrefixOf]
  | cons d t =>
    simp only [List.isPrefixOf, Bool.and_eq_true, beq_iff_eq]
    constructor
    · rintro ⟨rfl, -⟩; exact ⟨t, rfl⟩
    · rintro ⟨t2, ht⟩
      injection ht with h1 h2
      exact ⟨h1.symm, by simp [List.isPrefixOf]⟩

theorem isPrefixOf_pair_iff {c d : Char} {l : List Char} :
    [c, d].isPrefixOf l = true ↔ ∃ t, l = c :: d :: t := by
  cases l with
  | nil => simp [List.isPrefixOf]
  | cons e rest =>
    cases rest with
    | nil =>
      simp only [List.isPrefixOf, Bool.and_eq_true, beq_iff_eq]
      constructor
      · rintro ⟨-, h⟩; cases h
      · rintro ⟨t, ht⟩; cases ht
    | cons f t =>
      simp only [List.isPrefixOf, Bool.and_eq_true, beq_iff_eq]
      constructor
      · rintro ⟨rfl, rfl, -⟩; exact ⟨t, rfl⟩
      · rintro ⟨t2, ht⟩
        injection ht with h1 h2
        injection h2 with h2 h3
        exact ⟨h1.symm, h2.symm, by simp [List.isPrefixOf]⟩

theorem isPrefixOf_iff_append {l : List Char} : ∀ {L : List Char},
    l.isPrefixOf L = true ↔ ∃ t, L = l ++ t := by
  induction l with
  | nil => intro L; simp [List.isPrefixOf]
  | cons a as ih =>
    intro L
    cases L with
    | nil => simp [List.isPrefixOf]
    | cons b bs =>
      simp only [List.isPrefixOf, Bool.and_eq_true, beq_iff_eq, ih, List.cons_append]
      constructor
      · rintro ⟨rfl, t, rfl⟩; exact ⟨t, rfl⟩
      · rintro ⟨t, ht⟩
        injection ht with h1 h2
        exact ⟨h1.symm, t, h2⟩

theorem listIncludes_iff {n : List Char} : ∀ {h : List Char},
    listIncludes n h = true ↔ ∃ pre post, h = pre ++ n ++ post := by
  intro h
  induction h with
  | nil =>
    simp only [listIncludes, List.isEmpty_iff]
    constructor
    · rintro rfl; exact ⟨[], [], rfl⟩
    · rintro ⟨pre, post, hh⟩
      rcases List.append_eq_nil.mp hh.symm with ⟨h1, h2⟩
      exact (List.append_eq_nil.mp h1).2
  | cons c rest ih =>
    simp only [listIncludes, Bool.or_eq_true, ih, isPrefixOf_iff_append]
    constructor
    · rintro (⟨t, ht⟩ | ⟨pre, post, hh⟩)
      · exact ⟨[], t, by simpa using ht⟩
      · exact ⟨c :: pre, post, by simp [hh]⟩
    · rintro ⟨pre, post, hh⟩
      cases pre with
      | nil => exact Or.inl ⟨post, by simpa using hh⟩
      | cons p ps =>
        refine Or.inr ?_
        simp only [List.cons_append, List.append_assoc] at hh
        injection hh with h1 h2
        exact ⟨ps, post, by simpa [List.append_assoc] using h2⟩

theorem consLit_map_snd_flatten (c : Char) (segs : List (Bool × List Char)) :
    ((consLit c segs).map Prod.snd).flatten = c :: (segs.map Prod.snd).flatten := by
  match segs with
  | [] => rfl
  | (false, seg) :: more => simp [consLit]
  | (true, seg) :: more => simp [consLit]

theorem scanAux_flatten (sn : List (List Char)) :
    ∀ fuel cs, cs.length ≤ fuel → ((scanAux sn fuel cs).map Prod.snd).flatten = cs := by
  intro fuel
  induction fuel with
  | zero =>
    intro cs h
    have : cs = [] := List.eq_nil_of_length_eq_zero (Nat.le_zero.mp h)
    subst this
    rfl
  | succ fuel ih =>
    intro cs h
    match cs with
    | [] => rfl
    | c :: rest =>
      have hrest : rest.length ≤ fuel := by
        simp only [List.length_cons] at h
        omega
      simp only [scanAux]
      cases hm : matchAt sn (c :: rest) with
      | none =>
        rw [consLit_map_snd_flatten, ih rest hrest]
      | some n =>
        cases n with
        | zero =>
          simp only [List.map_cons, List.flatten_cons]
          rw [ih rest hrest]
          rfl
        | succ n =>
          simp only [List.map_cons, List.flatten_cons]
          have hdrop : (List.drop n rest).length ≤ fuel := by
            simp only [List.length_drop]
            omega
          rw [ih (List.drop n rest) hdrop]
          have : List.drop n rest = List.drop (n + 1) (c :: rest) := rfl
          rw [this, List.take_append_drop]

theorem scanSegs_flatten (sn : List (List Char)) (text : List Char) :
    ((scanSegs sn text).map Prod.snd).flatten = text :=
  scanAux_flatten sn text.length text (Nat.le_refl _)

theorem emitFull_flatten (text : List Char) (sn cn : List (List Char)) (f : Bool) :
    ∀ (segs : List (Bool × List Char)) (cursor : Nat),
      ((emitFull text sn cn f cursor segs).map FullRun.part).flatten =
        (segs.map Prod.snd).flatten := by
  intro segs
  induction segs with
  | nil => intro cursor; rfl
  | cons s rest ih =>
    intro cursor
    obtain ⟨m, part⟩ := s
    simp only [emitFull]
    by_cases hp : part.isEmpty = true
    · rw [if_pos hp]
      have hnil : part = [] := List.isEmpty_iff.mp hp
      simp [hnil, ih]
    · rw [if_neg hp]
      simp [ih]

theorem emitFull_token (text : List Char) (sn cn : List (List Char)) (f : Bool) :
    ∀ (segs : List (Bool × List Char)) (cursor : Nat) (r : FullRun),
      r ∈ emitFull text sn cn f cursor segs →
      r.token = classifyPart text sn cn f r.cursor r.part ∧ r.part ≠ [] := by
  intro segs
  induction segs with
  | nil => intro cursor r h; simp [emitFull] at h
  | cons s rest ih =>
    intro cursor r h
    obtain ⟨m, part⟩ := s
    simp only [emitFull] at h
    by_cases hp : part.isEmpty = true
    · rw [if_pos hp] at h
      exact ih _ r h
    · rw [if_neg hp] at h
      rcases List.mem_cons.mp h with rfl | h
      · exact ⟨rfl, fun hc => hp (List.isEmpty_iff.mpr hc)⟩
      · exact ih _ r h

theorem emitFull_offset (text : List Char) (sn cn : List (List Char)) (f : Bool) :
    ∀ (segs : List (Bool × List Char)) (cursor : Nat) (r : FullRun),
      r ∈ emitFull text sn cn f cursor segs →
      ∃ pre post, (segs.map Prod.snd).flatten = pre ++ r.part ++ post ∧
        cursor + pre.length = r.cursor := by
  intro segs
  induction segs with
  | nil => intro cursor r h; simp [emitFull] at h
  | cons s rest ih =>
    intro cursor r h
    obtain ⟨m, part⟩ := s
    simp only [emitFull] at h
    by_cases hp : part.isEmpty = true
    · rw [if_pos hp] at h
      have hnil : part = [] := List.isEmpty_iff.mp hp
      obtain ⟨pre, post, h1, h2⟩ := ih cursor r h
      exact ⟨pre, post, by simp [hnil, h1], h2⟩
    · rw [if_neg hp] at h
      rcases List.mem_cons.mp h with rfl | h
      · exact ⟨[], (rest.map Prod.snd).flatten, by simp, by simp⟩
      · obtain ⟨pre, post, h1, h2⟩ := ih (cursor + part.length) r h
        refine ⟨part ++ pre, post, ?_, ?_⟩
        · simp [h1, List.append_assoc]
        · simp only [List.length_append]
          omega

theorem emitTokens_eq_map (text : List Char) (sn cn : List (List Char)) (f : Bool) :
    ∀ (segs : List (Bool × List Char)) (cursor : Nat),
      emitTokens text sn cn f cursor (segs.map Prod.snd) =
        (emitFull text sn cn f cursor segs).map FullRun.token := by
  intro segs
  induction segs with
  | nil => intro cursor; rfl
  | cons s rest ih =>
    intro cursor
    obtain ⟨m, part⟩ := s
    simp only [List.map_cons, emitTokens, emitFull]
    by_cases hp : part.isEmpty = true
    · rw [if_pos hp, if_pos hp]
      exact ih cursor
    · rw [if_neg hp, if_neg hp]
      simp [ih]

theorem tokenizeLine_eq_map (text : List Char) (names : List (List Char)) (flag : Bool) :
    tokenizeLine text names flag = (tokenizeFull text names flag).map FullRun.token := by
  unfold tokenizeLine tokenizeFull
  by_cases he : text.isEmpty = true
  · rw [if_pos he, if_pos he]; rfl
  · rw [if_neg he, if_neg he]
    exact emitTokens_eq_map text (sortNames names) names flag (scanSegs (sortNames names) text) 0

theorem tokenizeFull_token {text : List Char} {names : List (List Char)} {flag : Bool}
    {r : FullRun} (hr : r ∈ tokenizeFull text names flag) :
    r.token = classifyPart text (sortNames names) names flag r.cursor r.part ∧
      r.part ≠ [] := by
  unfold tokenizeFull at hr
  by_cases he : text.isEmpty = true
  · rw [if_pos he] at hr; simp at hr
  · rw [if_neg he] at hr
    exact emitFull_token text (sortNames names) names flag _ 0 r hr

theorem mem_sortNames {x : List Char} {l : List (List Char)} :
    x ∈ sortNames l ↔ x ∈ l :=
  List.mem_insertionSort byLenDesc

theorem sortNames_pairwise (l : List (List Char)) :
    (sortNames l).Pairwise byLenDesc :=
  List.sorted_insertionSort byLenDesc l

theorem find_isPrefixOf_longest {cs : List Char} :
    ∀ {l : List (List Char)} {n0 : List Char},
      l.Pairwise byLenDesc →
      l.find? (fun n => n.isPrefixOf cs) = some n0 →
      ∀ n ∈ l, n.isPrefixOf cs = true → n.length ≤ n0.length := by
  intro l
  induction l with
  | nil => intro n0 hs hf; simp at hf
  | cons y ys ih =>
    intro n0 hs hf
    rcases List.pairwise_cons.mp hs with ⟨hy, hys⟩
    cases hp : y.isPrefixOf cs with
    | true =>
      simp only [List.find?_cons, hp] at hf
      injection hf with hf
      subst hf
      intro n hn hpn
      rcases List.mem_cons.mp hn with rfl | hn
      · exact Nat.le_refl _
      · exact hy n hn
    | false =>
      simp only [List.find?_cons, hp] at hf
      intro n hn hpn
      rcases List.mem_cons.mp hn with rfl | hn
      · rw [hp] at hpn; cases hpn
      · exact ih hys hf n hn hpn

theorem nameMatch_longest {names : List (List Char)} {cs : List Char} {k : Nat}
    (h : nameMatch (sortNames names) cs = some k) :
    ∀ n ∈ names, n.isPrefixOf cs = true → n.length ≤ k := by
  unfold nameMatch at h
  by_cases hg : sortNames names = [] ∨ sortNames names = [[]]
  · rw [if_pos hg] at h; cases h
  · rw [if_neg hg] at h
    cases hfind : (sortNames names).find? (fun n => n.isPrefixOf cs) with
    | none => rw [hfind] at h; cases h
    | some n0 =>
      rw [hfind] at h
      injection h with h
      subst h
      intro n hn hp
      exact find_isPrefixOf_longest (sortNames_pairwise names) hfind n
        (mem_sortNames.mpr hn) hp

theorem nameMatch_exists {names : List (List Char)} {cs n : List Char}
    (hn : n ∈ names) (hne : n ≠ []) (hp : n.isPrefixOf cs = true) :
    ∃ k, nameMatch (sortNames names) cs = some k ∧ n.length ≤ k := by
  have hmem : n ∈ sortNames names := mem_sortNames.mpr hn
  have hguard : ¬(sortNames names = [] ∨ sortNames names = [[]]) := by
    rintro (h | h) <;> rw [h] at hmem
    · simp at hmem
    · simp at hmem; exact hne hmem
  have hsome : ((sortNames names).find? (fun m => m.isPrefixOf cs)).isSome := by
    rw [List.find?_isSome]
    exact ⟨n, hmem, hp⟩
  obtain ⟨n0, hf⟩ := Option.isSome_iff_exists.mp hsome
  refine ⟨n0.length, ?_, ?_⟩
  · unfold nameMatch
    rw [if_neg hguard, hf]
    rfl
  · exact find_isPrefixOf_longest (sortNames_pairwise names) hf n hmem hp

theorem structTokensEq_refl : ∀ l : List TextToken, structTokensEq l l = true := by
  intro l
  induction l with
  | nil => rfl
  | cons a as ih =>
    have heq : structTokensEq (a :: as) (a :: as) =
        if a.text = a.text ∧ a.type = a.type then structTokensEq as as else false := rfl
    rw [heq, if_pos ⟨rfl, rfl⟩]
    exact ih

theorem contains_iff_mem {l : List (List Char)} {x : List Char} :
    l.contains x = true ↔ x ∈ l := by
  induction l with
  | nil => simp
  | cons a as ih =>
    rw [List.contains_cons, Bool.or_eq_true, beq_iff_eq, ih, List.mem_cons]

theorem not_starts_quran_of_star {part t : List Char} (hpart : part = '*' :: t) :
    ¬(['\x7b'].isPrefixOf part = true ∨ ['﴿'].isPrefixOf part = true ∨
      ['['].isPrefixOf part = true) := by
  rintro (hc | hc | hc) <;>
  · rcases isPrefixOf_single_iff.mp hc with ⟨t2, ht2⟩
    rw [hpart] at ht2
    injection ht2 with hch hrest
    exact absurd hch (by decide)

theorem classifyPart_bold_eq {text : List Char} {sn cn : List (List Char)} {flag : Bool}
    {cur : Nat} {part : List Char}
    (h1 : ['*', '*'].isPrefixOf part = true) (h2 : ['*', '*'].isSuffixOf part = true)
    (h3 : 4 < part.length) :
    classifyPart text sn cn flag cur part =
      { text := stripMarks 2 part,
        type :=
          if sn.any (fun name => listIncludes name (stripMarks 2 part)) then
            (if flag then
              (if (jsTrim (text.take cur)).length = 0 then TokenType.NAME
               else TokenType.BOLD)
             else TokenType.NAME)
          else TokenType.BOLD } := by
  obtain ⟨t, hpart⟩ := isPrefixOf_pair_iff.mp h1
  have hq : ¬(['\x7b'].isPrefixOf part = true ∨ ['﴿'].isPrefixOf part = true ∨
      ['['].isPrefixOf part = true) := not_starts_quran_of_star hpart
  simp only [classifyPart]
  rw [if_neg hq, if_pos ⟨h1, h2, h3⟩]
  split_ifs <;> rfl

theorem classifyPart_name_eq {text : List Char} {sn cn : List (List Char)} {flag : Bool}
    {cur : Nat} {part : List Char}
    (hq : ¬(['\x7b'].isPrefixOf part = true ∨ ['﴿'].isPrefixOf part = true ∨
      ['['].isPrefixOf part = true))
    (hb : ¬(['*', '*'].isPrefixOf part = true ∧ ['*', '*'].isSuffixOf part = true ∧
      4 < part.length))
    (hi : ¬((['*'].isPrefixOf part = true ∧ ['*'].isSuffixOf part = true) ∨
      (['_'].isPrefixOf part = true ∧ ['_'].isSuffixOf part = true)))
    (hn : cn.contains part = true) :
    classifyPart text sn cn flag cur part =
      { text := part,
        type :=
          if flag then
            (if (jsTrim (text.take cur)).length = 0 then TokenType.NAME
             else TokenType.STANDARD)
          else TokenType.NAME } := by
  simp only [classifyPart]
  rw [if_neg hq, if_neg hb, if_neg hi, if_pos hn]
  split_ifs <;> rfl

theorem classifyPart_standard_eq {text : List Char} {sn cn : List (List Char)} {flag : Bool}
    {cur : Nat} {part : List Char}
    (hq : ¬(['\x7b'].isPrefixOf part = true ∨ ['﴿'].isPrefixOf part = true ∨
      ['['].isPrefixOf part = true))
    (hb : ¬(['*', '*'].isPrefixOf part = true ∧ ['*', '*'].isSuffixOf part = true ∧
      4 < part.length))
    (hi : ¬((['*'].isPrefixOf part = true ∧ ['*'].isSuffixOf part = true) ∨
      (['_'].isPrefixOf part = true ∧ ['_'].isSuffixOf part = true)))
    (hn : cn.contains part = false) :
    classifyPart text sn cn flag cur part =
      { text := part, type := TokenType.STANDARD } := by
  have hn2 : ¬(cn.contains part = true) := by rw [hn]; exact Bool.false_ne_true
  simp only [classifyPart]
  rw [if_neg hq, if_neg hb, if_neg hi, if_neg hn2]

theorem classifyPart_quran_eq {text : List Char} {sn cn : List (List Char)} {flag : Bool}
    {cur : Nat} {part : List Char}
    (hq : ['\x7b'].isPrefixOf part = true ∨ ['﴿'].isPrefixOf part = true ∨
      ['['].isPrefixOf part = true) :
    classifyPart text sn cn flag cur part =
      { text := part, type := TokenType.QURAN } := by
  simp only [classifyPart]
  rw [if_pos hq]

theorem classifyPart_italic_eq {text : List Char} {sn cn : List (List Char)} {flag : Bool}
    {cur : Nat} {part : List Char}
    (hq : ¬(['\x7b'].isPrefixOf part = true ∨ ['﴿'].isPrefixOf part = true ∨
      ['['].isPrefixOf part = true))
    (hb : ¬(['*', '*'].isPrefixOf part = true ∧ ['*', '*'].isSuffixOf part = true ∧
      4 < part.length))
    (hi : (['*'].isPrefixOf part = true ∧ ['*'].isSuffixOf part = true) ∨
      (['_'].isPrefixOf part = true ∧ ['_'].isSuffixOf part = true)) :
    classifyPart text sn cn flag cur part =
      { text := stripMarks 1 part, type := TokenType.ITALIC } := by
  simp only [classifyPart]
  rw [if_neg hq, if_neg hb, if_pos hi]

/- Claim theorems. -/

/-- Claim C1: for every input line, dictionary and policy flag, the
pre-stripping parts of the runs emitted by the tokenizer concatenate, in
order, to the input line (no gaps, no overlaps, left to right order), the
emitted token sequence is exactly the classification of those parts, and
each run's part occurs in the line at the offset recorded by its cursor. -/
theorem claim1_coverage (text : List Char) (names : List (List Char)) (flag : Bool) :
    ((tokenizeFull text names flag).map FullRun.part).flatten = text ∧
    tokenizeLine text names flag = (tokenizeFull text names flag).map FullRun.token ∧
    ∀ r ∈ tokenizeFull text names flag,
      ∃ pre post, text = pre ++ r.part ++ post ∧ pre.length = r.cursor := by
  refine ⟨?_, tokenizeLine_eq_map text names flag, ?_⟩
  · unfold tokenizeFull
    by_cases he : text.isEmpty = true
    · rw [if_pos he]
      simp [List.isEmpty_iff.mp he]
    · rw [if_neg he]
      rw [emitFull_flatten, scanSegs_flatten]
  · intro r hr
    unfold tokenizeFull at hr
    by_cases he : text.isEmpty = true
    · rw [if_pos he] at hr; simp at hr
    · rw [if_neg he] at hr
      obtain ⟨pre, post, h1, h2⟩ :=
        emitFull_offset text (sortNames names) names flag _ 0 r hr
      rw [scanSegs_flatten] at h1
      exact ⟨pre, post, h1, by omega⟩

/-- Witness for claim C1 at a concrete input: the bare name run of the
line starts at offset six. -/
theorem claim1_coverage_witness :
    ∃ pre post, ("مرحبا مصطفى").data = pre ++ ("مصطفى").data ++ post ∧
      pre.length = 6 := by
  exact (claim1_coverage ("مرحبا مصطفى").data [("مصطفى").data] true).2.2
    { cursor := 6, matched := true, part := ("مصطفى").data,
      token := { text := ("مصطفى").data, type := TokenType.STANDARD } } (by decide)

/-- Claim C10: determinism of classification.  Tokenization is a pure
function of the line, the dictionary and the policy flag, so two runs on
the same triple are structurally identical, same length and position by
position the same text and the same kind. -/
theorem claim10_determinism (text : List Char) (names : List (List Char)) (flag : Bool) :
    structTokensEq (tokenizeLine text names flag) (tokenizeLine text names flag) = true :=
  structTokensEq_refl _

/-- Claim C5 counterexample: the optional reference group of the anchored
citation regex captures the whitespace that separates the quotation from
the reference, so the decomposed reference of the round tripped citation is
not the bare bracketed text claimed: it carries a leading space. -/
theorem claim5_citation_roundtrip_cex :
    (decomposeCitation ("\x7bالله نور\x7d [النور: 35]").data
        VerseBracketType.round).reference ≠ some ("[النور: 35]").data := by
  decide

/-- Claim C5 as amended: the citation line tokenizes to exactly one
citation run whose text is the original span with delimiters intact, and
decomposing it with the round bracket style yields the bare quoted text,
round delimiters, and the reference kept with the separating whitespace
that the capture group includes. -/
theorem claim5_citation_roundtrip :
    tokenizeLine ("\x7bالله نور\x7d [النور: 35]").data [] false =
      [{ text := ("\x7bالله نور\x7d [النور: 35]").data, type := TokenType.QURAN }] ∧
    decomposeCitation ("\x7bالله نور\x7d [النور: 35]").data VerseBracketType.round =
      { quoted := some ("الله نور").data,
        reference := some (" [النور: 35]").data,
        leftDelim := some '(', rightDelim := some ')' } := by
  exact ⟨by decide, by decide⟩

/-- Claim C8: a standalone bracketed reference tokenizes to exactly one
citation run, and decomposing any citation text that starts with an opening
square bracket and ends with a closing one yields no quoted content, the
whole text as the reference, and no configured delimiters. -/
theorem claim8_standalone_reference :
    tokenizeLine ("[النور: 35]").data [] false =
      [{ text := ("[النور: 35]").data, type := TokenType.QURAN }] ∧
    ∀ (text : List Char) (style : VerseBracketType),
      ['['].isPrefixOf text = true → [']'].isSuffixOf text = true →
      decomposeCitation text style =
        { quoted := none, reference := some text,
          leftDelim := none, rightDelim := none } := by
  refine ⟨by decide, ?_⟩
  intro text style h1 h2
  unfold decomposeCitation
  rw [if_pos ⟨h1, h2⟩]

/-- Witness for claim C8: decomposing the concrete standalone reference. -/
theorem claim8_standalone_reference_witness :
    decomposeCitation ("[النور: 35]").data VerseBracketType.round =
      { quoted := none, reference := some ("[النور: 35]").data,
        leftDelim := none, rightDelim := none } :=
  claim8_standalone_reference.2 ("[النور: 35]").data VerseBracketType.round
    (by decide) (by decide)

/-- Claim C9 counterexample: a curly pair with empty content does not
conform to the citation grammar (the anchored regex requires at least one
inner character) and is not a standalone square reference, yet the
decomposer still strips its wrapper, so the quoted content is not the
entire text as the claim requires. -/
theorem claim9_decomposer_fallback_cex :
    verseMatch ("\x7b\x7d").data = none ∧
    ¬(['['].isPrefixOf ("\x7b\x7d").data = true ∧
      [']'].isSuffixOf ("\x7b\x7d").data = true) ∧
    (decomposeCitation ("\x7b\x7d").data VerseBracketType.round).quoted ≠
      some ("\x7b\x7d").data := by
  exact ⟨by decide, by decide, by decide⟩

/-- Claim C9 as amended: for a citation text that is not a standalone
square reference and does not match the anchored two part grammar, the
decomposer treats the entire text as the quoted content with no reference,
provided the text is not itself wrapped in a curly or ornate pair; a
wrapped nonconforming text still has its outer wrapper stripped. -/
theorem claim9_decomposer_fallback (text : List Char) (style : VerseBracketType)
    (hnotref : ¬(['['].isPrefixOf text = true ∧ [']'].isSuffixOf text = true))
    (hnomatch : verseMatch text = none)
    (hnowrap : ¬((['\x7b'].isPrefixOf text = true ∧ ['\x7d'].isSuffixOf text = true) ∨
      (['﴿'].isPrefixOf text = true ∧ ['﴾'].isSuffixOf text = true))) :
    (decomposeCitation text style).quoted = some text ∧
    (decomposeCitation text style).reference = none := by
  unfold decomposeCitation
  rw [if_neg hnotref]
  simp only [hnomatch]
  rw [if_neg hnowrap]
  exact ⟨rfl, rfl⟩

/-- Witness for claim C9 at a concrete nonconforming text. -/
theorem claim9_decomposer_fallback_witness :
    (decomposeCitation ("abc").data VerseBracketType.round).quoted =
      some ("abc").data ∧
    (decomposeCitation ("abc").data VerseBracketType.round).reference = none :=
  claim9_decomposer_fallback ("abc").data VerseBracketType.round
    (by decide) (by decide) (by decide)

/-- Claim C2: for every part of bold shape (double star prefix and suffix,
length above four) among the emitted runs, the token text is the content
with the double stars stripped; when the stripped content contains some
dictionary name as a substring, the run kind is Name exactly when the
policy flag is off or everything before the part's start offset is
whitespace, and Bold otherwise; when no dictionary name occurs in the
stripped content, the kind is Bold.  The concrete bold name example of the
specification is included. -/
theorem claim2_bold_promotion :
    (∀ (text : List Char) (names : List (List Char)) (flag : Bool) (r : FullRun),
      r ∈ tokenizeFull text names flag →
      ['*', '*'].isPrefixOf r.part = true →
      ['*', '*'].isSuffixOf r.part = true →
      4 < r.part.length →
      r.token.text = stripMarks 2 r.part ∧
      ((∃ n ∈ names, ∃ pre post, stripMarks 2 r.part = pre ++ n ++ post) →
        r.token.type =
          if flag then
            (if (text.take r.cursor).all isWs then TokenType.NAME
             else TokenType.BOLD)
          else TokenType.NAME) ∧
      ((¬∃ n ∈ names, ∃ pre post, stripMarks 2 r.part = pre ++ n ++ post) →
        r.token.type = TokenType.BOLD)) ∧
    tokenizeLine ("**د. رشيد:** قال").data [("د. رشيد").data] true =
      [{ text := ("د. رشيد:").data, type := TokenType.NAME },
       { text := (" قال").data, type := TokenType.STANDARD }] := by
  constructor
  · intro text names flag r hr h1 h2 h3
    obtain ⟨htok, hne⟩ := tokenizeFull_token hr
    rw [htok, classifyPart_bold_eq h1 h2 h3]
    dsimp only
    have hanyiff :
        ((sortNames names).any (fun name => listIncludes name (stripMarks 2 r.part)) =
          true) ↔
        (∃ n ∈ names, ∃ pre post, stripMarks 2 r.part = pre ++ n ++ post) := by
      rw [List.any_eq_true]
      constructor
      · rintro ⟨n, hn, hinc⟩
        exact ⟨n, mem_sortNames.mp hn, listIncludes_iff.mp hinc⟩
      · rintro ⟨n, hn, hpre⟩
        exact ⟨n, mem_sortNames.mpr hn, listIncludes_iff.mpr hpre⟩
    have htrimiff : ((jsTrim (text.take r.cursor)).length = 0) ↔
        ((text.take r.cursor).all isWs = true) := by
      rw [List.length_eq_zero, jsTrim_eq_nil_iff]
    refine ⟨rfl, ?_, ?_⟩
    · intro hex
      rw [if_pos (hanyiff.mpr hex)]
      cases flag with
      | false => rfl
      | true =>
        rw [if_pos rfl, if_pos rfl]
        exact if_congr htrimiff rfl rfl
    · intro hnex
      rw [if_neg (fun hc => hnex (hanyiff.mp hc))]
  · decide

/-- Witness for claim C2: the bold name span of the concrete example is
classified Name with the double stars stripped. -/
theorem claim2_bold_promotion_witness :
    ∃ r : FullRun,
      r ∈ tokenizeFull ("**د. رشيد:** قال").data [("د. رشيد").data] true ∧
      r.token.text = stripMarks 2 r.part ∧ r.token.type = TokenType.NAME := by
  refine ⟨{ cursor := 0, matched := true, part := ("**د. رشيد:**").data,
            token := { text := ("د. رشيد:").data, type := TokenType.NAME } },
    by decide, ?_, ?_⟩
  · exact (claim2_bold_promotion.1 ("**د. رشيد:** قال").data [("د. رشيد").data] true _
      (by decide) (by decide) (by decide) (by decide)).1
  · have h := (claim2_bold_promotion.1 ("**د. رشيد:** قال").data [("د. رشيد").data] true
      { cursor := 0, matched := true, part := ("**د. رشيد:**").data,
        token := { text := ("د. رشيد:").data, type := TokenType.NAME } }
      (by decide) (by decide) (by decide) (by decide)).2.1
      ⟨("د. رشيد").data, by decide, [], [':'], by decide⟩
    exact h.trans (by decide)

/-- Claim C3 counterexample: the claim asserts that a bare dictionary
match not consumed by a citation, bold or italic span is always classified
Name when the policy flag is off, but a dictionary entry that itself has
emphasis marker shape is still reclassified by the content checks: with
the single star as dictionary entry and the single star line, the match is
emitted as an Italic run with the marker stripped, not as a Name run. -/
theorem claim3_positional_policy_cex :
    tokenizeLine ("*").data [("*").data] false =
      [{ text := [], type := TokenType.ITALIC }] ∧
    TokenType.ITALIC ≠ TokenType.NAME := by
  exact ⟨by decide, by decide⟩

/-- Claim C3 as amended: for every emitted run whose part is a dictionary
entry and does not itself look like a citation opener, a bold span or an
emphasis span, the token keeps the part text and is classified Name exactly
when the policy flag is off or everything before the match offset is
whitespace, and Standard otherwise.  The three concrete positional policy
examples of the specification are included. -/
theorem claim3_positional_policy :
    (∀ (text : List Char) (names : List (List Char)) (flag : Bool) (r : FullRun),
      r ∈ tokenizeFull text names flag →
      ¬(['\x7b'].isPrefixOf r.part = true ∨ ['﴿'].isPrefixOf r.part = true ∨
        ['['].isPrefixOf r.part = true) →
      ¬(['*', '*'].isPrefixOf r.part = true ∧ ['*', '*'].isSuffixOf r.part = true ∧
        4 < r.part.length) →
      ¬((['*'].isPrefixOf r.part = true ∧ ['*'].isSuffixOf r.part = true) ∨
        (['_'].isPrefixOf r.part = true ∧ ['_'].isSuffixOf r.part = true)) →
      r.part ∈ names →
      r.token.text = r.part ∧
      r.token.type =
        if flag then
          (if (text.take r.cursor).all isWs then TokenType.NAME
           else TokenType.STANDARD)
        else TokenType.NAME) ∧
    tokenizeLine ("مرحبا مصطفى").data [("مصطفى").data] true =
      [{ text := ("مرحبا ").data, type := TokenType.STANDARD },
       { text := ("مصطفى").data, type := TokenType.STANDARD }] ∧
    tokenizeLine ("مرحبا مصطفى").data [("مصطفى").data] false =
      [{ text := ("مرحبا ").data, type := TokenType.STANDARD },
       { text := ("مصطفى").data, type := TokenType.NAME }] ∧
    tokenizeLine ("مصطفى قال").data [("مصطفى").data] true =
      [{ text := ("مصطفى").data, type := TokenType.NAME },
       { text := (" قال").data, type := TokenType.STANDARD }] := by
  refine ⟨?_, by decide, by decide, by decide⟩
  intro text names flag r hr hq hb hi hn
  obtain ⟨htok, hne⟩ := tokenizeFull_token hr
  rw [htok, classifyPart_name_eq hq hb hi (contains_iff_mem.mpr hn)]
  dsimp only
  refine ⟨rfl, ?_⟩
  have htrimiff : ((jsTrim (text.take r.cursor)).length = 0) ↔
      ((text.take r.cursor).all isWs = true) := by
    rw [List.length_eq_zero, jsTrim_eq_nil_iff]
  cases flag with
  | false => rfl
  | true =>
    rw [if_pos rfl, if_pos rfl]
    exact if_congr htrimiff rfl rfl

/-- Witness for claim C3: the dictionary name at the start of the line is
classified Name under the positional policy. -/
theorem claim3_positional_policy_witness :
    ∃ r : FullRun,
      r ∈ tokenizeFull ("مصطفى قال").data [("مصطفى").data] true ∧
      r.token.text = r.part ∧ r.token.type = TokenType.NAME := by
  refine ⟨{ cursor := 0, matched := true, part := ("مصطفى").data,
            token := { text := ("مصطفى").data, type := TokenType.NAME } },
    by decide, ?_, ?_⟩
  · exact (claim3_positional_policy.1 ("مصطفى قال").data [("مصطفى").data] true _
      (by decide) (by decide) (by decide) (by decide) (by decide)).1
  · have h := (claim3_positional_policy.1 ("مصطفى قال").data [("مصطفى").data] true
      { cursor := 0, matched := true, part := ("مصطفى").data,
        token := { text := ("مصطفى").data, type := TokenType.NAME } }
      (by decide) (by decide) (by decide) (by decide) (by decide)).2
    exact h.trans (by decide)

/-- Claim C6 counterexample: the claim asserts that unterminated
delimiters are always emitted as Standard runs with the literal markers,
but a fall-through part that begins with an opening square bracket is
classified by the content check as a citation run: the unterminated
bracket line yields a Quran run, not a Standard one. -/
theorem claim6_malformed_cex :
    tokenizeLine ("[abc").data [] false =
      [{ text := ("[abc").data, type := TokenType.QURAN }] ∧
    TokenType.QURAN ≠ TokenType.STANDARD := by
  exact ⟨by decide, by decide⟩

/-- Claim C6 as amended: malformed or unterminated delimiters match no
pattern and fall through into unmatched parts; such a part is emitted as a
Standard run with the literal marker characters kept, unless the part
itself begins with a citation opener, has bold or emphasis marker shape,
or is a dictionary entry, in which case the content checks reclassify it.
The concrete lone double star example, embedded in surrounding text, is
included. -/
theorem claim6_malformed :
    (∀ (text : List Char) (names : List (List Char)) (flag : Bool) (r : FullRun),
      r ∈ tokenizeFull text names flag →
      r.matched = false →
      ¬(['\x7b'].isPrefixOf r.part = true ∨ ['﴿'].isPrefixOf r.part = true ∨
        ['['].isPrefixOf r.part = true) →
      ¬(['*', '*'].isPrefixOf r.part = true ∧ ['*', '*'].isSuffixOf r.part = true ∧
        4 < r.part.length) →
      ¬((['*'].isPrefixOf r.part = true ∧ ['*'].isSuffixOf r.part = true) ∨
        (['_'].isPrefixOf r.part = true ∧ ['_'].isSuffixOf r.part = true)) →
      r.part ∉ names →
      r.token = { text := r.part, type := TokenType.STANDARD }) ∧
    tokenizeLine ("a ** b").data [] false =
      [{ text := ("a ** b").data, type := TokenType.STANDARD }] := by
  refine ⟨?_, by decide⟩
  intro text names flag r hr hm hq hb hi hn
  obtain ⟨htok, hne⟩ := tokenizeFull_token hr
  have hc : names.contains r.part = false := by
    revert hn
    cases hcc : names.contains r.part with
    | true => intro hn; exact absurd (contains_iff_mem.mp hcc) hn
    | false => intro hn; rfl
  rw [htok, classifyPart_standard_eq hq hb hi hc]

/-- Witness for claim C6: the line with a lone double star surrounded by
text falls through as one Standard run keeping the markers. -/
theorem claim6_malformed_witness :
    ∃ r : FullRun,
      r ∈ tokenizeFull ("a ** b").data [] false ∧
      r.token = { text := r.part, type := TokenType.STANDARD } := by
  refine ⟨{ cursor := 0, matched := false, part := ("a ** b").data,
            token := { text := ("a ** b").data, type := TokenType.STANDARD } },
    by decide, ?_⟩
  exact claim6_malformed.1 ("a ** b").data [] false _ (by decide) (by decide)
    (by decide) (by decide) (by decide) (by decide)

/-- Claim C7 counterexample: a lone single star line produces one emitted
run whose text is empty; its part was never matched by any pattern (it is
a fall-through literal), so the exception of the claim for whitespace-only
stripped matched spans does not cover it. -/
theorem claim7_no_empty_cex :
    tokenizeFull ("*").data [] false =
      [{ cursor := 0, matched := false, part := ("*").data,
         token := { text := [], type := TokenType.ITALIC } }] ∧
    tokenizeLine ("*").data [] false = [{ text := [], type := TokenType.ITALIC }] := by
  exact ⟨by decide, by decide⟩

/-- Claim C7 as amended: every emitted run comes from a non-empty part,
and a run with zero length text can only be an Italic run obtained by
stripping the outer characters from a part of length at most two; in
particular a bold span whose content is whitespace only is still emitted
as a Bold run with that whitespace content, as the concrete double star
example shows. -/
theorem claim7_no_empty :
    (∀ (text : List Char) (names : List (List Char)) (flag : Bool) (r : FullRun),
      r ∈ tokenizeFull text names flag →
      r.part ≠ [] ∧
      (r.token.text = [] →
        r.token.type = TokenType.ITALIC ∧ r.part.length ≤ 2)) ∧
    tokenizeLine ("**  **").data [] false =
      [{ text := ("  ").data, type := TokenType.BOLD }] := by
  refine ⟨?_, by decide⟩
  intro text names flag r hr
  obtain ⟨htok, hne⟩ := tokenizeFull_token hr
  refine ⟨hne, ?_⟩
  intro hempty
  by_cases hq : (['\x7b'].isPrefixOf r.part = true ∨ ['﴿'].isPrefixOf r.part = true ∨
      ['['].isPrefixOf r.part = true)
  · rw [htok, classifyPart_quran_eq hq] at hempty
    exact absurd hempty hne
  · by_cases hb : (['*', '*'].isPrefixOf r.part = true ∧
        ['*', '*'].isSuffixOf r.part = true ∧ 4 < r.part.length)
    · rw [htok, classifyPart_bold_eq hb.1 hb.2.1 hb.2.2] at hempty
      exfalso
      have hlen := stripMarks_length 2 r.part
      have h0 : stripMarks 2 r.part = [] := hempty
      rw [h0] at hlen
      simp only [List.length_nil] at hlen
      have := hb.2.2
      omega
    · by_cases hi : ((['*'].isPrefixOf r.part = true ∧ ['*'].isSuffixOf r.part = true) ∨
          (['_'].isPrefixOf r.part = true ∧ ['_'].isSuffixOf r.part = true))
      · rw [htok, classifyPart_italic_eq hq hb hi] at hempty
        constructor
        · rw [htok, classifyPart_italic_eq hq hb hi]
        · have h0 : stripMarks 1 r.part = [] := hempty
          have hlen := stripMarks_length 1 r.part
          rw [h0] at hlen
          simp only [List.length_nil] at hlen
          omega
      · by_cases hn : names.contains r.part = true
        · rw [htok, classifyPart_name_eq hq hb hi hn] at hempty
          exact absurd hempty hne
        · have hc : names.contains r.part = false := by
            revert hn
            cases names.contains r.part with
            | true => intro hn; exact absurd rfl hn
            | false => intro hn; rfl
          rw [htok, classifyPart_standard_eq hq hb hi hc] at hempty
          exact absurd hempty hne

/-- Witness for claim C7: the lone single star line yields an Italic run
with empty text from a part of length one. -/
theorem claim7_no_empty_witness :
    ∃ r : FullRun,
      r ∈ tokenizeFull ("*").data [] false ∧
      r.token.type = TokenType.ITALIC ∧ r.part.length ≤ 2 := by
  refine ⟨{ cursor := 0, matched := false, part := ("*").data,
            token := { text := [], type := TokenType.ITALIC } },
    by decide, ?_⟩
  exact (claim7_no_empty.1 ("*").data [] false _ (by decide)).2 (by decide)

/-- Claim C4: name matching uses longest entry first precedence.  Whenever
the names alternative matches at a position, the match length is at least
the length of every dictionary entry that occurs at that position, so a
longer name is never shadowed by a shorter prefix of it; whenever some
non-empty entry occurs at a position, the names alternative does match
there.  The concrete overlapping dictionary example of the specification
is included, both for the raw matcher and through the tokenizer. -/
theorem claim4_longest_name :
    (∀ (names : List (List Char)) (cs : List Char) (k : Nat),
      nameMatch (sortNames names) cs = some k →
      ∀ n ∈ names, n.isPrefixOf cs = true → n.length ≤ k) ∧
    (∀ (names : List (List Char)) (cs n : List Char),
      n ∈ names → n ≠ [] → n.isPrefixOf cs = true →
      ∃ k, nameMatch (sortNames names) cs = some k ∧ n.length ≤ k) ∧
    nameMatch (sortNames [("رشيد").data, ("د. رشيد").data]) ("د. رشيد اليوم").data =
      some 7 ∧
    tokenizeLine ("قال د. رشيد اليوم").data [("رشيد").data, ("د. رشيد").data] false =
      [{ text := ("قال ").data, type := TokenType.STANDARD },
       { text := ("د. رشيد").data, type := TokenType.NAME },
       { text := (" اليوم").data, type := TokenType.STANDARD }] := by
  refine ⟨?_, ?_, by decide, by decide⟩
  · intro names cs k h n hn hp
    exact nameMatch_longest h n hn hp
  · intro names cs n hn hne hp
    exact nameMatch_exists hn hne hp

/-- Witness for claim C4: at the concrete match position the longer
dictionary entry wins and its length bounds the match. -/
theorem claim4_longest_name_witness :
    ("د. رشيد").data.length ≤ 7 :=
  claim4_longest_name.1 [("رشيد").data, ("د. رشيد").data] ("د. رشيد اليوم").data 7
    (by decide) ("د. رشيد").data (by decide) (by decide)
